import Mathlib

/-!
Shallow embedding of the concurrency utilities of the `react-paris-meetup-011`
repository (`src/ts/concurrency.ts` and the ClojureScript demo files), together
with theorems checking the repository's specification against the code.

Conventions used throughout:
* machine time is modelled as `Nat` milliseconds;
* a settled JavaScript promise is modelled as an `Except` value
  (`Except.ok` = fulfilled, `Except.error` = rejected);
* tasks and operations are identified by `Nat` ids where only their identity
  matters, and by their settled outcome where the outcome matters.
-/

namespace Meetup011

/-! ### Priority scheduler (`PriorityScheduler` in `concurrency.ts`)

The scheduler keeps one FIFO queue per priority lane
(`immediate`, `high`, `normal`, `low`, `idle`).
`schedule` pushes a task at the back of its lane's queue;
`getNextTask` walks the lanes in the fixed `priorityOrder` and shifts the
front task of the first non-empty lane. -/

inductive Priority where
  | immediate
  | high
  | normal
  | low
  | idle
deriving DecidableEq, Repr

/-- The fixed lane order of `PriorityScheduler.priorityOrder`. -/
def priorityOrder : List Priority :=
  [Priority.immediate, Priority.high, Priority.normal, Priority.low, Priority.idle]

/-- Numeric rank of a lane: position in `priorityOrder`, lower = more urgent. -/
def Priority.rank : Priority → Nat
  | .immediate => 0
  | .high => 1
  | .normal => 2
  | .low => 3
  | .idle => 4

/-- The `queues` map of `PriorityScheduler`: one FIFO list per lane. -/
structure SchedState (τ : Type) where
  immediate : List τ
  high : List τ
  normal : List τ
  low : List τ
  idle : List τ
deriving DecidableEq, Repr

/-- Read one lane's queue. -/
def SchedState.lane (s : SchedState τ) : Priority → List τ
  | .immediate => s.immediate
  | .high => s.high
  | .normal => s.normal
  | .low => s.low
  | .idle => s.idle

/-- Replace one lane's queue. -/
def SchedState.setLane (s : SchedState τ) : Priority → List τ → SchedState τ
  | .immediate, q => { s with immediate := q }
  | .high, q => { s with high := q }
  | .normal, q => { s with normal := q }
  | .low, q => { s with low := q }
  | .idle, q => { s with idle := q }

/-- `schedule(priority, execute)`: `this.queues.get(priority)!.push(task)` —
the task goes to the back of its lane's queue. -/
def schedule (p : Priority) (t : τ) (s : SchedState τ) : SchedState τ :=
  s.setLane p (s.lane p ++ [t])

/-- The loop body of `getNextTask`: walk the given lane list, and on the first
lane with `queue.length > 0` shift its front task. -/
def getNextGo (s : SchedState τ) : List Priority → Option (τ × SchedState τ)
  | [] => none
  | p :: ps =>
    match s.lane p with
    | [] => getNextGo s ps
    | t :: ts => some (t, s.setLane p ts)

/-- `PriorityScheduler.getNextTask`: first task of the first non-empty lane in
`priorityOrder`. -/
def getNextTask (s : SchedState τ) : Option (τ × SchedState τ) :=
  getNextGo s priorityOrder

theorem lane_setLane_same (s : SchedState τ) (p : Priority) (q : List τ) :
    (s.setLane p q).lane p = q := by
  cases p <;> rfl

theorem lane_setLane_other (s : SchedState τ) {p q : Priority} (l : List τ) (h : q ≠ p) :
    (s.setLane p l).lane q = s.lane q := by
  cases p <;> cases q <;> simp_all [SchedState.setLane, SchedState.lane]

theorem getNextTask_eq_none_iff (s : SchedState τ) :
    getNextTask s = none ↔
      s.immediate = [] ∧ s.high = [] ∧ s.normal = [] ∧ s.low = [] ∧ s.idle = [] := by
  obtain ⟨i, h, n, l, d⟩ := s
  cases i <;> cases h <;> cases n <;> cases l <;> cases d <;>
    simp [getNextTask, priorityOrder, getNextGo, SchedState.lane, SchedState.setLane]

/-- C1: whenever the scheduler selects the next task, the selected task is the
front (oldest) task of some lane `p`, every strictly higher-priority lane is
empty (lanes are checked in the fixed order immediate, high, normal, low,
idle), and only lane `p` is popped; `getNextTask` returns `none` exactly when
all lanes are empty, and `schedule` appends at the back of the chosen lane and
leaves every other lane unchanged — so priorities drain highest-first and FIFO
within a lane. -/
theorem c1_scheduler_selection {τ : Type} (s : SchedState τ) :
    (getNextTask s = none ↔ ∀ p, s.lane p = []) ∧
    (∀ (t : τ) (s' : SchedState τ), getNextTask s = some (t, s') →
      ∃ p : Priority, s.lane p = t :: s'.lane p ∧
        (∀ q, q.rank < p.rank → s.lane q = []) ∧
        (∀ q, q ≠ p → s'.lane q = s.lane q)) ∧
    (∀ (p : Priority) (t : τ), (schedule p t s).lane p = s.lane p ++ [t] ∧
      ∀ q, q ≠ p → (schedule p t s).lane q = s.lane q) := by
  refine ⟨?_, ?_, ?_⟩
  · rw [getNextTask_eq_none_iff]
    constructor
    · rintro ⟨h1, h2, h3, h4, h5⟩ p
      cases p <;> simpa [SchedState.lane]
    · intro hp
      exact ⟨hp .immediate, hp .high, hp .normal, hp .low, hp .idle⟩
  · intro t s' hsel
    obtain ⟨i, h, n, l, d⟩ := s
    cases i with
    | cons a as =>
      simp [getNextTask, priorityOrder, getNextGo, SchedState.lane,
        SchedState.setLane] at hsel
      obtain ⟨rfl, rfl⟩ := hsel
      refine ⟨Priority.immediate, rfl, ?_, ?_⟩
      · intro q hq
        cases q <;> simp [Priority.rank] at hq
      · intro q hq
        cases q <;> first | exact absurd rfl hq | rfl
    | nil =>
      cases h with
      | cons a as =>
        simp [getNextTask, priorityOrder, getNextGo, SchedState.lane,
          SchedState.setLane] at hsel
        obtain ⟨rfl, rfl⟩ := hsel
        refine ⟨Priority.high, rfl, ?_, ?_⟩
        · intro q hq
          cases q <;> simp [Priority.rank, SchedState.lane] at hq ⊢
        · intro q hq
          cases q <;> first | exact absurd rfl hq | rfl
      | nil =>
        cases n with
        | cons a as =>
          simp [getNextTask, priorityOrder, getNextGo, SchedState.lane,
            SchedState.setLane] at hsel
          obtain ⟨rfl, rfl⟩ := hsel
          refine ⟨Priority.normal, rfl, ?_, ?_⟩
          · intro q hq
            cases q <;> simp [Priority.rank, SchedState.lane] at hq ⊢
          · intro q hq
            cases q <;> first | exact absurd rfl hq | rfl
        | nil =>
          cases l with
          | cons a as =>
            simp [getNextTask, priorityOrder, getNextGo, SchedState.lane,
              SchedState.setLane] at hsel
            obtain ⟨rfl, rfl⟩ := hsel
            refine ⟨Priority.low, rfl, ?_, ?_⟩
            · intro q hq
              cases q <;> simp [Priority.rank, SchedState.lane] at hq ⊢
            · intro q hq
              cases q <;> first | exact absurd rfl hq | rfl
          | nil =>
            cases d with
            | cons a as =>
              simp [getNextTask, priorityOrder, getNextGo, SchedState.lane,
                SchedState.setLane] at hsel
              obtain ⟨rfl, rfl⟩ := hsel
              refine ⟨Priority.idle, rfl, ?_, ?_⟩
              · intro q hq
                cases q <;> simp [Priority.rank, SchedState.lane] at hq ⊢
              · intro q hq
                cases q <;> first | exact absurd rfl hq | rfl
            | nil =>
              simp [getNextTask, priorityOrder, getNextGo, SchedState.lane] at hsel
  · intro p t
    refine ⟨lane_setLane_same _ _ _, ?_⟩
    intro q hq
    exact lane_setLane_other _ _ hq

/-- Witness for C1 at the concrete state with lanes
`normal = [10, 20]`, `low = [30]` and the rest empty. -/
theorem c1_scheduler_selection_witness :
    (∃ p : Priority,
      (SchedState.mk ([] : List Nat) [] [10, 20] [30] []).lane p =
        10 :: (SchedState.mk ([] : List Nat) [] [20] [30] []).lane p ∧
      (∀ q, q.rank < p.rank →
        (SchedState.mk ([] : List Nat) [] [10, 20] [30] []).lane q = []) ∧
      (∀ q, q ≠ p →
        (SchedState.mk ([] : List Nat) [] [20] [30] []).lane q =
          (SchedState.mk ([] : List Nat) [] [10, 20] [30] []).lane q)) ∧
    (schedule Priority.normal 7 (SchedState.mk ([] : List Nat) [] [10, 20] [30] [])).lane
        Priority.high =
      (SchedState.mk ([] : List Nat) [] [10, 20] [30] []).lane Priority.high :=
  ⟨(c1_scheduler_selection (SchedState.mk ([] : List Nat) [] [10, 20] [30] [])).2.1
      10 (SchedState.mk ([] : List Nat) [] [20] [30] []) rfl,
   ((c1_scheduler_selection (SchedState.mk ([] : List Nat) [] [10, 20] [30] [])).2.2
      Priority.normal 7).2 Priority.high (by decide)⟩

/-! ### Drain loop of the scheduler (`PriorityScheduler.processNext`)

`processNext` runs `while (true) { task = getNextTask(); if none break;
try { resolve(await task.execute()) } catch { reject(error) };
await yieldToMain() }`.

A running task may call `schedule` while it executes; in the embedding the
tasks a given task schedules are given by an environment
`env : Nat → List (Priority × Nat)`, and they are added to the lane queues
before the next selection point, exactly as the synchronous `schedule` calls
mutate `this.queues` before the loop's next `getNextTask`.  The loop is
modelled with explicit fuel since a task may keep spawning work forever. -/

/-- The `schedule` calls performed by task `t` while it executes. -/
def addSpawns (env : Nat → List (Priority × Nat)) (t : Nat) (s : SchedState Nat) :
    SchedState Nat :=
  (env t).foldl (fun acc pt => schedule pt.1 pt.2 acc) s

/-- Observable events of the drain loop: running a task, or awaiting
`yieldToMain`. -/
inductive TraceEv where
  | exec (t : Nat)
  | yield
deriving DecidableEq, Repr

/-- Event trace of `processNext`: run the selected task (its `schedule` calls
land in the queues), then `await yieldToMain()`, then select again. -/
def drainTrace (env : Nat → List (Priority × Nat)) : Nat → SchedState Nat → List TraceEv
  | 0, _ => []
  | fuel + 1, s =>
    match getNextTask s with
    | none => []
    | some (t, s') =>
      TraceEv.exec t :: TraceEv.yield :: drainTrace env fuel (addSpawns env t s')

theorem drainTrace_succ (env : Nat → List (Priority × Nat)) (fuel : Nat)
    (s : SchedState Nat) :
    drainTrace env (fuel + 1) s =
      match getNextTask s with
      | none => []
      | some (t, s') =>
        TraceEv.exec t :: TraceEv.yield :: drainTrace env fuel (addSpawns env t s') :=
  rfl

theorem getNextTask_immediate (s : SchedState τ) {u : τ} {us : List τ}
    (h : s.immediate = u :: us) :
    getNextTask s = some (u, { s with immediate := us }) := by
  obtain ⟨i, hh, n, l, d⟩ := s
  subst h
  rfl

/-- C5: in every drain-loop trace, each executed task is immediately followed
by a yield to the event loop (even the last one), so no two tasks run
back-to-back without an `await yieldToMain()`; moreover a task scheduled while
another task executes is visible at the very next selection point — if the
running task `t` leaves a task `u` at the front of the immediate lane, `u` is
the next task executed after the yield. -/
theorem c5_yield_between_tasks (env : Nat → List (Priority × Nat)) (fuel : Nat)
    (s : SchedState Nat) :
    (∀ i t, (drainTrace env fuel s).get? i = some (TraceEv.exec t) →
      (drainTrace env fuel s).get? (i + 1) = some TraceEv.yield) ∧
    (∀ t s' u us, getNextTask s = some (t, s') →
      (addSpawns env t s').immediate = u :: us → 2 ≤ fuel →
      (drainTrace env fuel s).take 3 =
        [TraceEv.exec t, TraceEv.yield, TraceEv.exec u]) := by
  constructor
  · induction fuel generalizing s with
    | zero =>
      intro i t hi
      simp [drainTrace] at hi
    | succ f ih =>
      intro i t hi
      rw [drainTrace_succ] at hi ⊢
      match hsel : getNextTask s with
      | none =>
        rw [hsel] at hi
        simp at hi
      | some (t₀, s') =>
        rw [hsel] at hi
        replace hi :
            (TraceEv.exec t₀ :: TraceEv.yield ::
              drainTrace env f (addSpawns env t₀ s')).get? i = some (TraceEv.exec t) := hi
        show (TraceEv.exec t₀ :: TraceEv.yield ::
            drainTrace env f (addSpawns env t₀ s')).get? (i + 1) = some TraceEv.yield
        match i with
        | 0 => rfl
        | 1 => simp at hi
        | (j + 2) =>
          simp only [List.get?_cons_succ] at hi ⊢
          exact ih _ j t hi
  · intro t s' u us hsel himm hfuel
    obtain ⟨f, rfl⟩ : ∃ f, fuel = f + 2 := ⟨fuel - 2, by omega⟩
    rw [drainTrace_succ, hsel]
    show List.take 3 (TraceEv.exec t :: TraceEv.yield ::
        drainTrace env (f + 1) (addSpawns env t s')) = _
    rw [drainTrace_succ, getNextTask_immediate _ himm]
    rfl

/-- Witness for C5: the normal-lane task `1` spawns task `9` on the immediate
lane, and `9` runs right after the yield that follows `1`, before the queued
normal task `2`. -/
theorem c5_yield_between_tasks_witness :
    (drainTrace (fun t => if t = 1 then [(Priority.immediate, 9)] else []) 3
        (SchedState.mk [] [] [1, 2] [] [])).get? 1 = some TraceEv.yield ∧
    (drainTrace (fun t => if t = 1 then [(Priority.immediate, 9)] else []) 3
        (SchedState.mk [] [] [1, 2] [] [])).take 3 =
      [TraceEv.exec 1, TraceEv.yield, TraceEv.exec 9] :=
  ⟨(c5_yield_between_tasks (fun t => if t = 1 then [(Priority.immediate, 9)] else []) 3
      (SchedState.mk [] [] [1, 2] [] [])).1 0 1 rfl,
   (c5_yield_between_tasks (fun t => if t = 1 then [(Priority.immediate, 9)] else []) 3
      (SchedState.mk [] [] [1, 2] [] [])).2 1 (SchedState.mk [] [] [2] [] []) 9 []
      rfl rfl (by decide)⟩

/-! ### Error handling in the drain loop

The loop body is `try { const result = await task.execute(); task.resolve(result) }
catch (error) { task.reject(error) }` — the settled outcome of `task.execute()`
is reported on that task's own promise (`resolve` on fulfilment, `reject` on
rejection) and the loop continues either way.  `outcome t` gives the settled
result of task `t`'s `execute`; the errors are modelled as `Nat` codes. -/

/-- One run of the drain loop: the list of `(task, settled result)` pairs in
execution order.  The `match` on `outcome t` is the `try`/`catch`: the `ok`
branch is `task.resolve(result)`, the `error` branch is `task.reject(error)`,
and both fall through to the next iteration. -/
def runDrain (outcome : Nat → Except Nat Nat) :
    Nat → SchedState Nat → List (Nat × Except Nat Nat)
  | 0, _ => []
  | fuel + 1, s =>
    match getNextTask s with
    | none => []
    | some (t, s') =>
      (match outcome t with
       | Except.ok v => (t, Except.ok v)
       | Except.error e => (t, Except.error e)) :: runDrain outcome fuel s'

theorem runDrain_succ (outcome : Nat → Except Nat Nat) (fuel : Nat) (s : SchedState Nat) :
    runDrain outcome (fuel + 1) s =
      match getNextTask s with
      | none => []
      | some (t, s') =>
        (match outcome t with
         | Except.ok v => (t, Except.ok v)
         | Except.error e => (t, Except.error e)) :: runDrain outcome fuel s' :=
  rfl

theorem runDrain_head (outcome : Nat → Except Nat Nat) (t : Nat) :
    (match outcome t with
     | Except.ok v => (t, Except.ok v)
     | Except.error e => (t, Except.error e)) = (t, outcome t) := by
  cases outcome t <;> rfl

/-- C6: the sequence of tasks the drain loop executes does not depend on which
tasks fail — replacing the outcome of every task (`o₁` vs. `o₂`) leaves the
executed task sequence unchanged, so a throwing task never stops the loop or
alters the other lanes; and each executed task's promise is settled with that
task's own outcome (rejected with its error exactly when it threw). -/
theorem runDrain_some (outcome : Nat → Except Nat Nat) (fuel : Nat) (s : SchedState Nat)
    {t : Nat} {s' : SchedState Nat} (h : getNextTask s = some (t, s')) :
    runDrain outcome (fuel + 1) s = (t, outcome t) :: runDrain outcome fuel s' := by
  simp only [runDrain_succ, h, runDrain_head]

theorem runDrain_none (outcome : Nat → Except Nat Nat) (fuel : Nat) (s : SchedState Nat)
    (h : getNextTask s = none) : runDrain outcome (fuel + 1) s = [] := by
  simp only [runDrain_succ, h]

theorem c6_failing_task_isolated (o₁ o₂ : Nat → Except Nat Nat) (fuel : Nat)
    (s : SchedState Nat) :
    (runDrain o₁ fuel s).map Prod.fst = (runDrain o₂ fuel s).map Prod.fst ∧
    (∀ pr ∈ runDrain o₁ fuel s, pr.2 = o₁ pr.1) := by
  induction fuel generalizing s with
  | zero => simp [runDrain]
  | succ f ih =>
    match hsel : getNextTask s with
    | none =>
      rw [runDrain_none o₁ f s hsel, runDrain_none o₂ f s hsel]
      simp
    | some (t, s') =>
      rw [runDrain_some o₁ f s hsel, runDrain_some o₂ f s hsel]
      constructor
      · simpa using (ih s').1
      · intro pr hpr
        rcases List.mem_cons.mp hpr with hh | hh
        · subst hh; rfl
        · exact (ih s').2 pr hh

/-- Witness for C6 at a state with one high task `1` (which rejects under the
first outcome map) and one normal task `2`. -/
theorem c6_failing_task_isolated_witness :
    ((runDrain (fun t => (Except.error t : Except Nat Nat)) 5
        (SchedState.mk [] [1] [2] [] [])).map Prod.fst =
      (runDrain (fun t => (Except.ok t : Except Nat Nat)) 5
        (SchedState.mk [] [1] [2] [] [])).map Prod.fst) ∧
    ((1 : Nat), (Except.error 1 : Except Nat Nat)).2 =
      (fun t => (Except.error t : Except Nat Nat)) 1 :=
  ⟨(c6_failing_task_isolated (fun t => Except.error t) (fun t => Except.ok t) 5
      (SchedState.mk [] [1] [2] [] [])).1,
   (c6_failing_task_isolated (fun t => Except.error t) (fun t => Except.ok t) 5
      (SchedState.mk [] [1] [2] [] [])).2 (1, Except.error 1)
      (by exact List.mem_cons_self _ _)⟩

/-! ### `debounce(fn, delay)` (`concurrency.ts`)

Each call does `clearTimeout(timeoutId); timeoutId = setTimeout(() => fn(...args), delay)`.
The embedding runs the returned function over a timeline: the input is the list
of calls `(time, args)` in strictly increasing time order, the state is the
pending timer (`timeoutId`) as `some (lastCallTime, lastArgs)`, and the output
is the list of `(time, args)` at which `fn` fires.  A pending timer set at
call time `c` fires at `c + delay`; a later call at time `t` reaches
`clearTimeout` first (and so cancels the timer) unless the timer's deadline
has already passed, i.e. unless `c + delay < t`. -/

def debounceRun (delay : Nat) : Option (Nat × α) → List (Nat × α) → List (Nat × α)
  | none, [] => []
  | some (c, b), [] => [(c + delay, b)]
  | none, (t, a) :: rest => debounceRun delay (some (t, a)) rest
  | some (c, b), (t, a) :: rest =>
    if c + delay < t then (c + delay, b) :: debounceRun delay (some (t, a)) rest
    else debounceRun delay (some (t, a)) rest

/-- A call at time `c` is followed by a quiet period: no further call happens
within `delay` milliseconds of it. -/
def quietAfter (delay c : Nat) (rest : List (Nat × α)) : Bool :=
  rest.all fun p => c + delay < p.1

/-- Spec-side definition, following the spec's words: the debounced callback
fires exactly once per burst — once for each call that is followed by a quiet
period of `delay` milliseconds (the last call of its burst) — it fires at that
call's time plus `delay` (never during a call, and not before the quiet period
has elapsed), and it carries that call's arguments. -/
def debounceBurstSpec (delay : Nat) : List (Nat × α) → List (Nat × α)
  | [] => []
  | (c, a) :: rest =>
    if quietAfter delay c rest then (c + delay, a) :: debounceBurstSpec delay rest
    else debounceBurstSpec delay rest

theorem debounceRun_pending (delay : Nat) (calls : List (Nat × α))
    (hs : calls.Pairwise fun p q => p.1 < q.1) (c : Nat) (b : α) :
    debounceRun delay (some (c, b)) calls =
      (if quietAfter delay c calls then [(c + delay, b)] else []) ++
        debounceBurstSpec delay calls := by
  induction calls generalizing c b with
  | nil => simp [debounceRun, debounceBurstSpec, quietAfter]
  | cons hd rest ih =>
    obtain ⟨t, a⟩ := hd
    rw [List.pairwise_cons] at hs
    obtain ⟨hlt, hrest⟩ := hs
    by_cases hfire : c + delay < t
    · have hall : ∀ p ∈ rest, c + delay < p.1 := by
        intro p hp
        have := hlt p hp
        omega
      have hq : quietAfter delay c ((t, a) :: rest) = true := by
        simp only [quietAfter, List.all_cons, Bool.and_eq_true, decide_eq_true_eq,
          List.all_eq_true]
        exact ⟨hfire, hall⟩
      rw [show debounceRun delay (some (c, b)) ((t, a) :: rest) =
            (c + delay, b) :: debounceRun delay (some (t, a)) rest from by
          simp [debounceRun, hfire]]
      rw [ih hrest t a, hq]
      by_cases hq2 : quietAfter delay t rest <;>
        simp [debounceBurstSpec, hq2]
    · have hq : quietAfter delay c ((t, a) :: rest) = false := by
        simp [quietAfter, List.all_cons]
        omega
      rw [show debounceRun delay (some (c, b)) ((t, a) :: rest) =
            debounceRun delay (some (t, a)) rest from by simp [debounceRun, hfire]]
      rw [ih hrest t a, hq]
      by_cases hq2 : quietAfter delay t rest <;>
        simp [debounceBurstSpec, hq2]

/-- C2: over any finite, strictly increasing sequence of calls, the function
returned by `debounce(fn, delay)` fires `fn` exactly as the burst spec says:
once per burst, at the time of the burst's last call plus `delay` (so only
after `delay` ms with no further calls, never during a call), and with the
arguments of that last call. -/
theorem c2_debounce_fires_once_per_burst (delay : Nat) (calls : List (Nat × α))
    (hs : calls.Pairwise fun p q => p.1 < q.1) :
    debounceRun delay none calls = debounceBurstSpec delay calls := by
  cases calls with
  | nil => rfl
  | cons hd rest =>
    obtain ⟨t, a⟩ := hd
    rw [List.pairwise_cons] at hs
    rw [show debounceRun delay none ((t, a) :: rest) =
          debounceRun delay (some (t, a)) rest from rfl]
    rw [debounceRun_pending delay rest hs.2 t a]
    by_cases hq : quietAfter delay t rest <;>
      simp [debounceBurstSpec, hq]

/-- Witness for C2: two bursts — calls at 0, 30, 60 and then at 200, with
`delay = 100` — fire twice, at 160 (arguments of the call at 60) and at 300
(arguments of the call at 200). -/
theorem c2_debounce_fires_once_per_burst_witness :
    debounceRun 100 none [(0, 1), (30, 2), (60, 3), (200, 4)] =
      debounceBurstSpec 100 [((0 : Nat), (1 : Nat)), (30, 2), (60, 3), (200, 4)] :=
  c2_debounce_fires_once_per_burst 100 _ (by decide)

/-! ### `createSequencer` (`concurrency.ts`)

`createSequencer` keeps `pending`, initially `Promise.resolve()`, and each
submission runs `pending = pending.then(operation).catch(() => operation());
return pending`.

The embedding works on settled outcomes.  `Outcome` is the settled state of a
promise; an operation is modelled by the outcome its promise settles to
(assumed the same on every invocation).  `thenRun pending op` is
`pending.then(operation)`: if `pending` fulfilled the handler invokes the
operation once and the result adopts the operation's outcome, if `pending`
rejected the handler is skipped and the rejection propagates.  `catchRun` is
`.catch(() => operation())`: if the promise it is attached to rejected, the
handler invokes the operation (again) and the result adopts its outcome.  The
second component counts how many times this submission's operation is
invoked. -/

inductive Outcome where
  | ok
  | err
deriving DecidableEq, Repr

/-- `pending.then(operation)`: (resulting outcome, invocations of `operation`). -/
def thenRun (pending op : Outcome) : Outcome × Nat :=
  match pending with
  | .ok => (op, 1)
  | .err => (.err, 0)

/-- `.catch(() => operation())` attached to the result of `thenRun`. -/
def catchRun (p : Outcome × Nat) (op : Outcome) : Outcome × Nat :=
  match p.1 with
  | .ok => p
  | .err => (op, p.2 + 1)

/-- One submission: `pending = pending.then(operation).catch(() => operation())`. -/
def sequencerSubmit (pending op : Outcome) : Outcome × Nat :=
  catchRun (thenRun pending op) op

/-- Run a whole list of submissions in order, starting from the initial
`Promise.resolve()`; returns the final `pending` outcome and the invocation
count of each submitted operation. -/
def runSequencer (ops : List Outcome) : Outcome × List Nat :=
  ops.foldl
    (fun acc op =>
      ((sequencerSubmit acc.1 op).1, acc.2 ++ [(sequencerSubmit acc.1 op).2]))
    (Outcome.ok, [])

/-- C3 counterexample: an operation that rejects, submitted while the chain is
healthy (previous operation fulfilled), is invoked twice — `.then(operation)`
invokes it, its rejection reaches the `.catch`, and the catch handler invokes
it again.  The claim says every submitted operation is invoked exactly once. -/
theorem c3_sequencer_counterexample :
    (sequencerSubmit Outcome.ok Outcome.err).2 = 2 ∧
      (sequencerSubmit Outcome.ok Outcome.err).2 ≠ 1 := by
  constructor
  · rfl
  · intro h
    simp [sequencerSubmit, thenRun, catchRun] at h

theorem sequencerSubmit_fst (prev op : Outcome) : (sequencerSubmit prev op).1 = op := by
  cases prev <;> cases op <;> rfl

theorem sequencerSubmit_snd (prev op : Outcome) :
    (sequencerSubmit prev op).2 =
      if prev = Outcome.ok ∧ op = Outcome.err then 2 else 1 := by
  cases prev <;> cases op <;> simp [sequencerSubmit, thenRun, catchRun]

theorem runSequencer_go (ops : List Outcome) (prev : Outcome) (acc : List Nat) :
    (ops.foldl
        (fun acc op =>
          ((sequencerSubmit acc.1 op).1, acc.2 ++ [(sequencerSubmit acc.1 op).2]))
        (prev, acc)).2 =
      acc ++
        List.zipWith
          (fun p op => if p = Outcome.ok ∧ op = Outcome.err then 2 else 1)
          (prev :: ops) ops := by
  induction ops generalizing prev acc with
  | nil => simp
  | cons op rest ih =>
    rw [List.foldl_cons]
    simp only []
    rw [ih]
    simp only [sequencerSubmit_fst, sequencerSubmit_snd]
    simp [List.zipWith]

/-- C3 amended: operations still run in submission order, one after the
settlement of the previous chain link, and the chain's outcome after a
submission is the submitted operation's outcome; but the invocation count is
not always one — an operation is invoked exactly once when it fulfills or when
the preceding chain link rejected, and exactly twice (a retry by the `catch`
handler) when it rejects after a fulfilled predecessor. -/
theorem c3_sequencer_amended (ops : List Outcome) :
    (runSequencer ops).2 =
      List.zipWith
        (fun p op => if p = Outcome.ok ∧ op = Outcome.err then 2 else 1)
        (Outcome.ok :: ops) ops ∧
    ∀ prev op, sequencerSubmit prev op =
      (op, if prev = Outcome.ok ∧ op = Outcome.err then 2 else 1) := by
  constructor
  · simpa using runSequencer_go ops Outcome.ok []
  · intro prev op
    refine Prod.ext ?_ ?_
    · simp [sequencerSubmit_fst]
    · simp [sequencerSubmit_snd]

/-! ### `createConcurrencyLimiter(limit)` (`concurrency.ts`)

The closure state is `running` (a JS number, modelled as `Int` so that the
lower bound `0 ≤ running` is a real statement) and `queue`, the list of queued
callbacks (modelled by operation ids).  `inFlight` is ghost state: the ids of
operations that have been started (their callback invoked) but whose promise
has not settled yet.

`runNext` is the code's `runNext`: if `running < limit && queue.length > 0`,
increment `running`, shift the queue, and start the shifted operation.
Submitting pushes the callback and calls `runNext`; when a started operation's
promise settles, the `finally` block decrements `running` and calls `runNext`.
`LimReach` is the set of states reachable from the initial state by those two
events (a settle event needs an operation actually in flight, since a promise
settles at most once). -/

structure LimiterState where
  running : Int
  queue : List Nat
  inFlight : List Nat
deriving DecidableEq, Repr

def runNext (limit : Int) (s : LimiterState) : LimiterState :=
  match s.queue with
  | op :: rest =>
    if s.running < limit then
      { running := s.running + 1, queue := rest, inFlight := s.inFlight ++ [op] }
    else s
  | [] => s

/-- Submission: `queue.push(...); runNext()`. -/
def limSubmit (limit : Int) (s : LimiterState) (op : Nat) : LimiterState :=
  runNext limit { s with queue := s.queue ++ [op] }

/-- Settlement of an in-flight operation: `finally { running--; runNext(); }`. -/
def limSettle (limit : Int) (s : LimiterState) (op : Nat) : LimiterState :=
  runNext limit
    { running := s.running - 1, queue := s.queue, inFlight := s.inFlight.erase op }

inductive LimReach (limit : Int) : LimiterState → Prop where
  | init : LimReach limit ⟨0, [], []⟩
  | submit (s : LimiterState) (op : Nat) :
      LimReach limit s → LimReach limit (limSubmit limit s op)
  | settle (s : LimiterState) (op : Nat) :
      LimReach limit s → op ∈ s.inFlight → LimReach limit (limSettle limit s op)

theorem runNext_preserves (limit : Int) (s : LimiterState)
    (h : 0 ≤ s.running ∧ s.running ≤ limit ∧ s.running = s.inFlight.length) :
    0 ≤ (runNext limit s).running ∧ (runNext limit s).running ≤ limit ∧
      (runNext limit s).running = (runNext limit s).inFlight.length := by
  obtain ⟨r, q, f⟩ := s
  obtain ⟨h1, h2, h3⟩ := h
  dsimp only at h1 h2 h3
  cases q with
  | nil => exact ⟨h1, h2, h3⟩
  | cons op rest =>
    simp only [runNext]
    by_cases hlt : r < limit
    · rw [if_pos hlt]
      refine ⟨by dsimp only; omega, by dsimp only; omega, ?_⟩
      dsimp only
      simp only [List.length_append, List.length_cons, List.length_nil]
      push_cast
      omega
    · rw [if_neg hlt]
      exact ⟨h1, h2, h3⟩

/-- C4: for every `limit ≥ 1`, in every state reachable by submissions and
settlements the counter satisfies `0 ≤ running ≤ limit` and equals the number
of operations in flight (started but unsettled), so at most `limit` operations
are ever in flight; and `runNext` starts a queued operation only when
`running < limit` and the queue is non-empty. -/
theorem c4_limiter_invariant (limit : Int) (hl : 1 ≤ limit) :
    (∀ s, LimReach limit s →
      0 ≤ s.running ∧ s.running ≤ limit ∧ s.running = s.inFlight.length) ∧
    (∀ s : LimiterState, runNext limit s ≠ s → s.running < limit ∧ s.queue ≠ []) := by
  constructor
  · intro s hs
    induction hs with
    | init => exact ⟨le_refl 0, by dsimp only; omega, by simp⟩
    | submit s op hs ih => exact runNext_preserves limit _ ih
    | settle s op hs hmem ih =>
      apply runNext_preserves
      obtain ⟨i1, i2, i3⟩ := ih
      have hlen : (s.inFlight.erase op).length = s.inFlight.length - 1 :=
        List.length_erase_of_mem hmem
      have hpos : 0 < s.inFlight.length :=
        List.length_pos.mpr (List.ne_nil_of_mem hmem)
      refine ⟨?_, ?_, ?_⟩
      · dsimp only
        omega
      · dsimp only
        omega
      · dsimp only
        rw [hlen]
        omega
  · intro s hne
    obtain ⟨r, q, f⟩ := s
    cases q with
    | nil => exact absurd rfl hne
    | cons op rest =>
      by_cases hlt : r < limit
      · exact ⟨hlt, by simp⟩
      · rw [show runNext limit ⟨r, op :: rest, f⟩ = ⟨r, op :: rest, f⟩ from by
            simp [runNext, hlt]] at hne
        exact absurd rfl hne

/-- Witness for C4 with `limit = 2`, after submitting operations `1` and `2`
(both start immediately), and at a waiting state with one queued operation. -/
theorem c4_limiter_invariant_witness :
    (0 ≤ (limSubmit 2 (limSubmit 2 ⟨0, [], []⟩ 1) 2).running ∧
      (limSubmit 2 (limSubmit 2 ⟨0, [], []⟩ 1) 2).running ≤ 2 ∧
      (limSubmit 2 (limSubmit 2 ⟨0, [], []⟩ 1) 2).running =
        (limSubmit 2 (limSubmit 2 ⟨0, [], []⟩ 1) 2).inFlight.length) ∧
    ((⟨0, [3], []⟩ : LimiterState).running < 2 ∧
      (⟨0, [3], []⟩ : LimiterState).queue ≠ []) :=
  ⟨(c4_limiter_invariant 2 (by norm_num)).1 _
      (LimReach.submit _ 2 (LimReach.submit _ 1 LimReach.init)),
   (c4_limiter_invariant 2 (by norm_num)).2 ⟨0, [3], []⟩ (by decide)⟩

/-! ### `makeCancelable(promise)` (`concurrency.ts`)

`makeCancelable` wraps `promise` and keeps a boolean `isCanceled`, set by
`cancel()`.  When the underlying promise settles, the wrapper's handlers fire:
on fulfilment `isCanceled ? reject({isCanceled: true}) : resolve(val)`, on
rejection `isCanceled ? reject({isCanceled: true}) : reject(error)`.

In the embedding `res` is the settled result of the underlying promise `p` —
it is an input computed independently of the flag, reflecting that the flag
never stops `p`'s own computation — and `isCanceled` is the flag's value at
the time the handler runs. -/

inductive CancelResult (ε ρ : Type) where
  | canceled
  | ok (v : ρ)
  | err (e : ε)
deriving DecidableEq, Repr

/-- How the wrapped promise settles, given the flag at settlement time and the
underlying promise's own result.  `CancelResult.canceled` is the rejection
with `{isCanceled: true}`. -/
def wrappedSettle (isCanceled : Bool) (res : Except ε ρ) : CancelResult ε ρ :=
  match res with
  | .ok v => if isCanceled then .canceled else .ok v
  | .error e => if isCanceled then .canceled else .err e

/-- C7: once `cancel()` has set the flag, the wrapped promise rejects with
`{isCanceled: true}` whenever the underlying promise settles, whether it
fulfilled or rejected (the underlying result `res` is still computed — the
flag only changes how it is reported); and if `cancel` is never called the
wrapped promise settles exactly as the underlying promise does. -/
theorem c7_cancelable_flag (res : Except Nat Nat) (v e : Nat) :
    wrappedSettle true res = CancelResult.canceled ∧
    wrappedSettle false (Except.ok v : Except Nat Nat) = CancelResult.ok v ∧
    wrappedSettle false (Except.error e : Except Nat Nat) = CancelResult.err e := by
  refine ⟨?_, rfl, rfl⟩
  cases res <;> rfl

/-! ### `processInChunks(items, processor, chunkSize)` (`concurrency.ts`)

`for (let i = 0; i < items.length; i += chunkSize) { const chunk =
items.slice(i, i + chunkSize); results.push(...chunk.map(processor)); ... }`.

Each loop iteration maps the processor over the next `chunkSize`-slice and
appends the results in order; the `await yieldToMain()` between chunks does
not touch `results`.  The loop is embedded with fuel so that the
`chunkSize = 0` case (where the JS loop never advances `i` and diverges) is
representable: `none` means the loop did not finish within the fuel, and the
top-level entry point supplies `items.length` fuel, enough iterations for any
`chunkSize ≥ 1`. -/

def chunksGo (f : α → β) (chunkSize : Nat) : Nat → List α → Option (List β)
  | _, [] => some []
  | 0, _ :: _ => none
  | fuel + 1, l =>
    (chunksGo f chunkSize fuel (l.drop chunkSize)).map
      (fun r => (l.take chunkSize).map f ++ r)

def processInChunks (items : List α) (f : α → β) (chunkSize : Nat) : Option (List β) :=
  chunksGo f chunkSize items.length items

theorem chunksGo_eq (f : α → β) (cs : Nat) (fuel : Nat) (l : List α)
    (hl : l.length ≤ fuel) (hcs : 1 ≤ cs) :
    chunksGo f cs fuel l = some (l.map f) := by
  induction fuel generalizing l with
  | zero =>
    have : l = [] := List.eq_nil_of_length_eq_zero (Nat.le_zero.mp hl)
    subst this
    rfl
  | succ n ih =>
    cases l with
    | nil => rfl
    | cons x xs =>
      have hdrop : ((x :: xs).drop cs).length ≤ n := by
        rw [List.length_drop]
        simp only [List.length_cons] at hl ⊢
        omega
      rw [show chunksGo f cs (n + 1) (x :: xs) =
            (chunksGo f cs n ((x :: xs).drop cs)).map
              (fun r => ((x :: xs).take cs).map f ++ r) from rfl]
      rw [ih _ hdrop]
      simp only [Option.map_some']
      rw [← List.map_append, List.take_append_drop]

/-- C8: for every item list, every processor and every `chunkSize ≥ 1`,
`processInChunks` terminates (returns `some`) and produces exactly
`items.map(processor)` — all items, in index order, each processed once. -/
theorem c8_process_in_chunks (items : List α) (f : α → β) (chunkSize : Nat)
    (h : 1 ≤ chunkSize) :
    processInChunks items f chunkSize = some (items.map f) :=
  chunksGo_eq f chunkSize items.length items (le_refl _) h

/-- Witness for C8: five items in chunks of two. -/
theorem c8_process_in_chunks_witness :
    processInChunks [1, 2, 3, 4, 5] (fun x => x * 2) 2 = some [2, 4, 6, 8, 10] :=
  c8_process_in_chunks [1, 2, 3, 4, 5] (fun x => x * 2) 2 (by decide)

/-! ### The re-frame `:load-more` event (infinite-scroll demo)

The app db of the ClojureScript demo (`default-db`), with `:items` modelled
by their ids.  The `:load-more` handler is
`(if (or (:loading? db) (not (:has-more? db))) {}
  {:db (assoc db :loading? true) :fetch-items {:page (:page db)}})` —
an empty effects map leaves the db unchanged and triggers nothing; otherwise
the db gets `:loading? true` and the `:fetch-items` effect carries the current
`:page`.  `loadMore` returns the new db and the page of the `:fetch-items`
effect, if any. -/

structure Db where
  items : List Nat
  page : Nat
  loading : Bool
  hasMore : Bool
  filterText : String
  scrollTop : Nat
  isScrolling : Bool
deriving DecidableEq, Repr

/-- `default-db`. -/
def default_db : Db :=
  { items := [], page := 0, loading := false, hasMore := true,
    filterText := "", scrollTop := 0, isScrolling := false }

/-- The `:load-more` event handler. -/
def loadMore (db : Db) : Db × Option Nat :=
  if db.loading || !db.hasMore then (db, none)
  else ({ db with loading := true }, some db.page)

/-- C9: dispatching `:load-more` with `:loading? true` or `:has-more? false`
returns the db unchanged and no `:fetch-items` effect; with `:loading? false`
and `:has-more? true` it sets `:loading?` to `true`, requests the current
`:page`, and leaves every other db field unchanged. -/
theorem c9_load_more (db : Db) :
    ((db.loading = true ∨ db.hasMore = false) → loadMore db = (db, none)) ∧
    (db.loading = false → db.hasMore = true →
      (loadMore db).2 = some db.page ∧
      (loadMore db).1.loading = true ∧
      (loadMore db).1.items = db.items ∧
      (loadMore db).1.page = db.page ∧
      (loadMore db).1.hasMore = db.hasMore ∧
      (loadMore db).1.filterText = db.filterText ∧
      (loadMore db).1.scrollTop = db.scrollTop ∧
      (loadMore db).1.isScrolling = db.isScrolling) := by
  constructor
  · intro h
    rcases h with h | h <;> simp [loadMore, h]
  · intro h1 h2
    simp [loadMore, h1, h2]

/-- Witness for C9: on `default-db` (idle, more pages) the event starts a
fetch of page 0; on a db already loading it is a no-op. -/
theorem c9_load_more_witness :
    ((loadMore default_db).2 = some default_db.page ∧
      (loadMore default_db).1.loading = true ∧
      (loadMore default_db).1.items = default_db.items ∧
      (loadMore default_db).1.page = default_db.page ∧
      (loadMore default_db).1.hasMore = default_db.hasMore ∧
      (loadMore default_db).1.filterText = default_db.filterText ∧
      (loadMore default_db).1.scrollTop = default_db.scrollTop ∧
      (loadMore default_db).1.isScrolling = default_db.isScrolling) ∧
    loadMore { default_db with loading := true } =
      ({ default_db with loading := true }, none) :=
  ⟨(c9_load_more default_db).2 rfl rfl,
   (c9_load_more { default_db with loading := true }).1 (Or.inl rfl)⟩

/-! ### The `:visible-items` subscription (infinite-scroll demo)

```
(let [start-idx (max 0 (- (quot scroll-top item-height) overscan))
      visible-count (quot container-height item-height)
      end-idx (min (count items) (+ start-idx visible-count (* 2 overscan)))]
  (subvec items start-idx (min end-idx (count items))) ...)
```

with `item-height 100`, `container-height 600`, `overscan 5`.  Numbers are
modelled as `Int` (Clojure `quot` on non-negative operands agrees with Lean's
Int division); `count` is the length of the `:filtered-items` vector.
ClojureScript's `subvec v start end` throws `Index out of bounds` unless
`0 ≤ start ≤ end ≤ count v`; `visibleBoundsOk` states those bounds for the
`subvec` call of the subscription. -/

def item_height : Int := 100

def container_height : Int := 600

def overscan : Int := 5

def start_idx (scrollTop : Int) : Int :=
  max 0 (scrollTop / item_height - overscan)

def visible_count : Int := container_height / item_height

def end_idx (scrollTop : Int) (count : Nat) : Int :=
  min (count : Int) (start_idx scrollTop + visible_count + 2 * overscan)

/-- The end argument the code passes to `subvec`: `(min end-idx (count items))`. -/
def subvec_end (scrollTop : Int) (count : Nat) : Int :=
  min (end_idx scrollTop count) (count : Int)

/-- The in-bounds condition of the subscription's `subvec` call. -/
def visibleBoundsOk (scrollTop : Int) (count : Nat) : Prop :=
  0 ≤ start_idx scrollTop ∧ start_idx scrollTop ≤ subvec_end scrollTop count ∧
    subvec_end scrollTop count ≤ (count : Int)

/-- C10 counterexample: with an empty filtered list and `scroll-top = 1000`
(a scroll position past the end of the list), `start-idx = 5` but the `subvec`
end argument is `0`, so `start-idx ≤ end` fails and `subvec` throws — the
claim's bounds do not hold for every non-negative scroll-top. -/
theorem c10_visible_items_counterexample : ¬ visibleBoundsOk 1000 0 := by
  unfold visibleBoundsOk
  decide

/-- C10 amended: the subscription's window bounds
`0 ≤ start-idx ≤ (min end-idx count) ≤ count` hold — and hence the `subvec`
call is in bounds — for every non-negative `scroll-top` that does not exceed
the total height `item-height * count` of the filtered list; they can fail
once `scroll-top` runs past the end of the list (see the counterexample). -/
theorem c10_visible_items_amended (scrollTop : Int) (count : Nat)
    (h0 : 0 ≤ scrollTop) (hle : scrollTop ≤ item_height * count) :
    visibleBoundsOk scrollTop count := by
  unfold visibleBoundsOk subvec_end end_idx start_idx visible_count at *
  unfold item_height container_height overscan at *
  omega

/-- Witness for C10 at `scroll-top = 1000` with 30 filtered items
(total height 3000). -/
theorem c10_visible_items_amended_witness :
    (0 : Int) ≤ 1000 ∧ (1000 : Int) ≤ item_height * (30 : Nat) ∧
      visibleBoundsOk 1000 30 :=
  ⟨by decide, by decide, c10_visible_items_amended 1000 30 (by decide) (by decide)⟩

end Meetup011
